import Mathlib

set_option maxRecDepth 100000

/-!
Verification of the Cortex incremental indexing and retrieval pipeline.

This file gives a shallow embedding of the core of the Cortex repository:
the document chunker (`src/document-chunker.ts`), the per-file sync logic
(`src/file-sync-embeddings.ts`) and the vector query path
(`src/vector-search.ts`), and proves (or refutes) the stated properties of
that code.

Modelling conventions:
* JavaScript strings are modelled as `List Char` (`Str`).
* The SHA-256 digest (`crypto.createHash('sha256')`) is an external library
  call; all definitions are parametrised over an arbitrary digest function
  `hashFn : Str → Str`, which is all the pipeline logic depends on.
* Source `while` loops are embedded as structurally recursive functions on a
  `fuel` argument; every entry point passes `length + 1` fuel, which is
  proved sufficient (each iteration strictly consumes input), so the
  embedded functions compute exactly the loops' results.
* The Ollama embedding call and the PostgreSQL statements are external I/O;
  they are modelled by an embedding oracle (`Except`-valued, so it can
  throw) and by an explicit event trace over an in-memory table
  (`List (DbRow V)`), replayed statement by statement.
-/

namespace Cortex

/-- JavaScript strings modelled as lists of characters. -/
abbrev Str := List Char

/-- `String.data` coercion used to write concrete `Str` literals. -/
def s2l (s : String) : Str := s.data

/-- `const MAX_CHUNK_SIZE = 256 * 4` (document-chunker.ts). -/
def MAX_CHUNK_SIZE : Nat := 256 * 4

/-- `const OVERLAP_SIZE = 25 * 4` (document-chunker.ts). -/
def OVERLAP_SIZE : Nat := 25 * 4

/-- The `Chunk` interface of `types.ts`. -/
structure Chunk where
  content : Str
  index : Nat
  «section» : Option Str
  tokenCount : Nat
  hash : Str
  deriving Repr, DecidableEq

/-- `createChunk(content, index, section?)` of document-chunker.ts, with the
SHA-256 digest abstracted as `hashFn`. -/
def createChunk (hashFn : Str → Str) (content : Str) (index : Nat)
    (sec : Option Str) : Chunk :=
  { content := content
    index := index
    «section» := sec
    tokenCount := content.length / 4
    hash := hashFn content }

/-- `hashFile(content)` of document-chunker.ts (SHA-256 digest, abstracted). -/
def hashFile (hashFn : Str → Str) (content : Str) : Str := hashFn content

/-- JS `content.slice(s, e)` for `0 ≤ s ≤ e ≤ content.length` (the only way
`chunkPlainText` calls it). -/
def sliceL (l : Str) (s e : Nat) : Str := (l.drop s).take (e - s)

/-- JS `str.slice(-n)`: the trailing `min n str.length` characters. -/
def takeLastL (n : Nat) (l : Str) : Str := l.drop (l.length - n)

/-- The JavaScript `\s` character class (also the set trimmed by
`String.prototype.trim`): ASCII whitespace plus the Unicode space
separators, line separators and BOM. -/
def isJsWs (c : Char) : Bool :=
  c.val = 0x9 ∨ c.val = 0xA ∨ c.val = 0xB ∨ c.val = 0xC ∨ c.val = 0xD ∨
  c.val = 0x20 ∨ c.val = 0xA0 ∨ c.val = 0x1680 ∨
  (0x2000 ≤ c.val ∧ c.val ≤ 0x200A) ∨
  c.val = 0x2028 ∨ c.val = 0x2029 ∨ c.val = 0x202F ∨ c.val = 0x205F ∨
  c.val = 0x3000 ∨ c.val = 0xFEFF

/-- JS `str.trim()`: strip leading and trailing whitespace. -/
def jsTrim (l : Str) : Str :=
  ((l.dropWhile isJsWs).reverse.dropWhile isJsWs).reverse

/-- The `while` loop of `chunkPlainText` (document-chunker.ts): emit
`content.slice(start, min (start+MAX) len)`, advance to `end - OVERLAP`, and
stop when the next start would not advance past the current one.  The loop
runs while `start < content.length` and every iteration strictly increases
`start`, so `content.length + 1` fuel always suffices. -/
def chunkPlainTextLoop (hashFn : Str → Str) (content : Str) :
    Nat → Nat → Nat → List Chunk
  | 0, _, _ => []
  | fuel + 1, start, chunkIndex =>
    if start < content.length then
      let e := min (start + MAX_CHUNK_SIZE) content.length
      let c := createChunk hashFn (sliceL content start e) chunkIndex none
      let nextStart := e - OVERLAP_SIZE
      if nextStart ≤ start then [c]
      else c :: chunkPlainTextLoop hashFn content fuel nextStart (chunkIndex + 1)
    else []

/-- `chunkPlainText(content)` of document-chunker.ts. -/
def chunkPlainText (hashFn : Str → Str) (content : Str) : List Chunk :=
  chunkPlainTextLoop hashFn content (content.length + 1) 0 0

/-- `chunkTypeScript(content)` of document-chunker.ts: plain-text chunking. -/
def chunkTypeScript (hashFn : Str → Str) (content : Str) : List Chunk :=
  chunkPlainText hashFn content

/-- Length of the match of `/^(#{1,6}\s+.+)$/m` at the start of `s` (which
the caller guarantees is a line start), or `none` when the regex does not
match there.  Backtracking semantics of the JS engine: `#{1,6}` must take
the whole leading run of `#` (a further `#` can never satisfy `\s`); `\s+`
greedily takes the maximal whitespace run; `.+` (which cannot cross a
newline) then takes the rest of that line, and `$` holds there.  When the
maximal whitespace run reaches the end of the string, `\s+` backtracks by
one character, which succeeds exactly when the run has length ≥ 2 and its
last character is not a newline. -/
def matchHeadingLen (s : Str) : Option Nat :=
  let j := (s.takeWhile (· = '#')).length
  if 1 ≤ j ∧ j ≤ 6 then
    let afterH := s.drop j
    let w := afterH.takeWhile isJsWs
    match afterH.drop w.length with
    | [] => if 2 ≤ w.length ∧ w.getLast? ≠ some '\n' then some s.length else none
    | _ :: _ =>
      if 1 ≤ w.length then
        some (j + w.length + ((afterH.drop w.length).takeWhile (· ≠ '\n')).length)
      else none
  else none

/-- The scan behind `content.split(/^(#{1,6}\s+.+)$/gm)` (chunkMarkdown):
walk the string; at every line start try the heading regex; a match ends the
current text part and is emitted itself (captured separator); otherwise the
character joins the current text part.  `acc` holds the current text part
reversed.  Each step consumes at least one character, so `length + 1` fuel
suffices (the final step emits the trailing part on the empty string). -/
def splitMdAux : Nat → Str → Bool → Str → List Str
  | 0, _, _, _ => []
  | fuel + 1, s, atStart, acc =>
    match (if atStart then matchHeadingLen s else none) with
    | some n => acc.reverse :: s.take n :: splitMdAux fuel (s.drop n) false []
    | none =>
      match s with
      | [] => [acc.reverse]
      | c :: cs => splitMdAux fuel cs (c = '\n') (c :: acc)

/-- `content.split(/^(#{1,6}\s+.+)$/gm)` of chunkMarkdown. -/
def splitMd (content : Str) : List Str :=
  splitMdAux (content.length + 1) content true []

/-- `part.match(/^#{1,6}\s+/)` of chunkMarkdown: one to six `#` followed by
at least one whitespace character. -/
def hasHeadingPrefix (p : Str) : Bool :=
  let j := (p.takeWhile (· = '#')).length
  decide (1 ≤ j) && decide (j ≤ 6) &&
    (match p.drop j with
     | c :: _ => isJsWs c
     | [] => false)

/-- `part.replace(/^#+\s+/, '')` of chunkMarkdown: remove the leading run of
`#` and the maximal whitespace run after it when both are non-empty,
otherwise leave the string unchanged (no match, no replacement). -/
def stripHeadingMarks (p : Str) : Str :=
  let j := (p.takeWhile (· = '#')).length
  if 1 ≤ j then
    let rest := p.drop j
    let w := rest.takeWhile isJsWs
    if 1 ≤ w.length then rest.drop w.length else p
  else p

/-- The `for (const part of sections)` loop of `chunkMarkdown`
(document-chunker.ts): heading parts update the current section label; text
parts accumulate, and when the accumulation exceeds `MAX_CHUNK_SIZE` it is
emitted (trimmed) as one chunk and the accumulator is reset to its trailing
`OVERLAP_SIZE` characters; a final non-empty trimmed accumulation is emitted
at the end. -/
def chunkMarkdownLoop (hashFn : Str → Str) :
    List Str → Str → Str → Nat → List Chunk
  | [], sec, cur, i =>
    if jsTrim cur ≠ [] then [createChunk hashFn (jsTrim cur) i (some sec)]
    else []
  | p :: ps, sec, cur, i =>
    if hasHeadingPrefix p then
      chunkMarkdownLoop hashFn ps (jsTrim (stripHeadingMarks p)) cur i
    else
      let cur' := cur ++ p
      if MAX_CHUNK_SIZE < cur'.length then
        createChunk hashFn (jsTrim cur') i (some sec) ::
          chunkMarkdownLoop hashFn ps sec (takeLastL OVERLAP_SIZE cur') (i + 1)
      else
        chunkMarkdownLoop hashFn ps sec cur' i

/-- `chunkMarkdown(content)` of document-chunker.ts. -/
def chunkMarkdown (hashFn : Str → Str) (content : Str) : List Chunk :=
  chunkMarkdownLoop hashFn (splitMd content) [] [] 0

/-- `type FileType = 'md' | 'ts' | 'tsx' | 'json'` (types.ts). -/
inductive FileType
  | md
  | ts
  | tsx
  | json
  deriving DecidableEq, Repr

/-- `chunkDocument(filePath, content, fileType)` of document-chunker.ts. -/
def chunkDocument (hashFn : Str → Str) (filePath : Str) (content : Str)
    (fileType : FileType) : List Chunk :=
  match fileType with
  | .md => chunkMarkdown hashFn content
  | .ts => chunkTypeScript hashFn content
  | .tsx => chunkTypeScript hashFn content
  | .json => chunkPlainText hashFn content

/-- JS `path.extname` (posix): the suffix of the basename from its last `.`,
empty when the basename has no `.` or only a leading one. -/
def extname (p : Str) : Str :=
  let base := (p.reverse.takeWhile (· ≠ '/')).reverse
  let revPre := base.reverse.takeWhile (· ≠ '.')
  if revPre.length = base.length then []
  else if base.length - revPre.length - 1 = 0 then []
  else '.' :: revPre.reverse

/-- `getFileType(filePath)` of file-sync-embeddings.ts: map the extension to
a `FileType`, defaulting to `md`. -/
def getFileType (filePath : Str) : FileType :=
  let ext := (extname filePath).drop 1
  if ext = s2l "md" then .md
  else if ext = s2l "ts" then .ts
  else if ext = s2l "tsx" then .tsx
  else if ext = s2l "json" then .json
  else .md

/-- `getLanguage(fileType)` of file-sync-embeddings.ts. -/
def getLanguage (fileType : FileType) : Option Str :=
  match fileType with
  | .ts => some (s2l "typescript")
  | .tsx => some (s2l "typescript")
  | .json => some (s2l "json")
  | .md => none

/-- JS `x || null` applied to the optional section label of a chunk before
insertion: `undefined` and the empty string both become SQL `NULL`. -/
def jsOrNull (o : Option Str) : Option Str :=
  match o with
  | some s => if s = [] then none else some s
  | none => none

/-- One row of the `cortex_file_chunks` table (the columns written by the
`INSERT` in `syncFile`); the embedding vector type is a parameter `V`
because the sync logic never inspects it. -/
structure DbRow (V : Type) where
  file_path : Str
  file_hash : Str
  file_type : FileType
  chunk_index : Nat
  chunk_hash : Str
  content : Str
  token_count : Nat
  embedding : V
  «section» : Option Str
  language : Option Str
  deriving DecidableEq, Repr

/-- The observable effects of `syncFile`, in program order: the `DELETE`
statement, the `chunkDocument` call, each embedding request, and each
`INSERT` statement. -/
inductive SyncEv (V : Type)
  | deleteFile (path : Str)
  | chunked (chunks : List Chunk)
  | embedCall (text : Str)
  | insertRow (row : DbRow V)
  deriving DecidableEq, Repr

/-- Effect of one statement on the table: `DELETE ... WHERE file_path = p`
removes every row of the path, `INSERT` appends one row; the other events do
not touch the store. -/
def applyEv {V : Type} (store : List (DbRow V)) : SyncEv V → List (DbRow V)
  | .deleteFile p => store.filter (fun r => !(r.file_path == p))
  | .insertRow r => store ++ [r]
  | .chunked _ => store
  | .embedCall _ => store

/-- State of the table after replaying a trace of statements. -/
def replay {V : Type} (store : List (DbRow V)) (evs : List (SyncEv V)) :
    List (DbRow V) :=
  evs.foldl applyEv store

/-- The rows inserted by a trace, in order. -/
def insertedRows {V : Type} (evs : List (SyncEv V)) : List (DbRow V) :=
  evs.filterMap (fun e =>
    match e with
    | .insertRow r => some r
    | _ => none)

/-- The `{ chunks, skipped }` result of `syncFile`. -/
structure SyncFileResult where
  chunks : Nat
  skipped : Bool
  deriving DecidableEq, Repr

/-- The row built by the `INSERT` in `syncFile` for one chunk and its
embedding vector. -/
def rowOfChunk {V : Type} (filePath fileHash : Str) (fileType : FileType)
    (c : Chunk) (v : V) : DbRow V :=
  { file_path := filePath
    file_hash := fileHash
    file_type := fileType
    chunk_index := c.index
    chunk_hash := c.hash
    content := c.content
    token_count := c.tokenCount
    embedding := v
    «section» := jsOrNull c.«section»
    language := getLanguage fileType }

/-- The `for (const chunk of chunks)` loop of `syncFile`: skip chunks longer
than 4000 characters, call the embedding service for each remaining chunk
(a thrown embedding error aborts the whole loop and propagates), insert one
row per embedded chunk, and count the insertions. -/
def processChunks {V E : Type} (embed : Str → Except E V)
    (filePath fileHash : Str) (fileType : FileType) :
    List Chunk → Nat → Except E Nat × List (SyncEv V)
  | [], created => (.ok created, [])
  | c :: cs, created =>
    if 4000 < c.content.length then
      processChunks embed filePath fileHash fileType cs created
    else
      match embed c.content with
      | .error err => (.error err, [.embedCall c.content])
      | .ok v =>
        let out := processChunks embed filePath fileHash fileType cs (created + 1)
        (out.1, .embedCall c.content ::
          .insertRow (rowOfChunk filePath fileHash fileType c v) :: out.2)

/-- `SELECT file_hash FROM cortex_file_chunks WHERE file_path = p LIMIT 1`:
the fingerprint recorded for a path (first matching row of the table). -/
def storedFingerprint {V : Type} (store : List (DbRow V)) (path : Str) :
    Option Str :=
  ((store.filter (fun r => r.file_path == path)).head?).map (fun r => r.file_hash)

/-- `syncFile(filePath, force)` of file-sync-embeddings.ts over a table
state: hash the content, look up the stored fingerprint, skip when it
matches and `force` is unset; otherwise delete the path's rows, chunk the
content, and embed and insert the chunks one by one.  Returns the result
(or the propagated embedding error) together with the trace of effects. -/
def syncFile {V E : Type} (hashFn : Str → Str) (embed : Str → Except E V)
    (store : List (DbRow V)) (filePath content : Str) (force : Bool) :
    Except E SyncFileResult × List (SyncEv V) :=
  let fileType := getFileType filePath
  let fileHash := hashFile hashFn content
  let existing := (store.filter (fun r => r.file_path == filePath)).head?
  if !force && (match existing with
                | some r => r.file_hash == fileHash
                | none => false) then
    (.ok ⟨0, true⟩, [])
  else
    let chunks := chunkDocument hashFn filePath content fileType
    let out := processChunks embed filePath fileHash fileType chunks 0
    (out.1.map (fun created => ⟨created, false⟩),
     .deleteFile filePath :: .chunked chunks :: out.2)

/-- Dot product of two vectors (componentwise, truncating to the shorter). -/
def dotR (u v : List ℝ) : ℝ := (List.zipWith (· * ·) u v).sum

/-- Modelled from the spec: the pgvector cosine-distance operator `<=>` used
by the `SELECT` in `queryVectorDatabase` is external database code; per its
documentation it is `1 - (u·v)/(‖u‖‖v‖)`. -/
noncomputable def cosineDistance (u v : List ℝ) : ℝ :=
  1 - dotR u v / (Real.sqrt (dotR u u) * Real.sqrt (dotR v v))

/-- The `RetrievalResult` interface of `types.ts`. -/
structure RetrievalResult where
  filePath : Str
  content : Str
  «section» : Option Str
  similarity : ℝ
  chunkIndex : Nat
  fileType : FileType

/-- The row-to-result mapping of `queryVectorDatabase`: the `similarity`
column is `1 - (embedding <=> queryEmbedding)`. -/
noncomputable def rowToResult (qv : List ℝ) (r : DbRow (List ℝ)) :
    RetrievalResult :=
  { filePath := r.file_path
    content := r.content
    «section» := r.«section»
    similarity := 1 - cosineDistance r.embedding qv
    chunkIndex := r.chunk_index
    fileType := r.file_type }

/-- Modelled from the spec: the external database's evaluation of the two
`SELECT` statements of `queryVectorDatabase` — optionally filter by file
type (only when the filter list is present and non-empty), order rows by
cosine distance to the query vector, and keep the first `topK`. -/
noncomputable def pgSearch (store : List (DbRow (List ℝ))) (qv : List ℝ)
    (fileTypeFilter : Option (List FileType)) (topK : Nat) :
    List (DbRow (List ℝ)) :=
  let base : List (DbRow (List ℝ)) :=
    match fileTypeFilter with
    | some fts =>
      if 0 < fts.length then store.filter (fun r => fts.contains r.file_type)
      else store
    | none => store
  (base.mergeSort (fun a b =>
    decide (cosineDistance a.embedding qv ≤ cosineDistance b.embedding qv))).take topK

/-- The storage boundary behaving as the real database over table state
`store` (a `SELECT` that succeeds). -/
noncomputable def pgRunQuery {E : Type} (store : List (DbRow (List ℝ))) :
    List ℝ → Option (List FileType) → Nat → Except E (List (DbRow (List ℝ))) :=
  fun qv fileTypeFilter topK => .ok (pgSearch store qv fileTypeFilter topK)

/-- `queryVectorDatabase(query, topK, fileTypeFilter)` of vector-search.ts:
embed the query, run the distance-ranked `SELECT`, and map rows to results;
the whole body is wrapped in `try ... catch { return [] }`, so any failure
of the embedding call or of the storage query yields `[]`. -/
noncomputable def queryVectorDatabase {E E' : Type}
    (embedQ : Str → Except E (List ℝ))
    (runQuery : List ℝ → Option (List FileType) → Nat →
      Except E' (List (DbRow (List ℝ))))
    (query : Str) (topK : Nat) (fileTypeFilter : Option (List FileType)) :
    List RetrievalResult :=
  match embedQ query with
  | .error _ => []
  | .ok qv =>
    match runQuery qv fileTypeFilter topK with
    | .error _ => []
    | .ok rows => rows.map (rowToResult qv)

/-- Concatenation of the chunks' non-overlapping portions: the first chunk
whole, every later chunk minus the `OVERLAP_SIZE` window it repeats from its
predecessor. -/
def reconstruct (chunks : List Chunk) : Str :=
  match chunks with
  | [] => []
  | c :: cs => c.content ++ (cs.map (fun x => x.content.drop OVERLAP_SIZE)).flatten

/-- The Markdown input of the spec's example scenario: two `##` sections
with bodies of 1500 and 200 characters. -/
def mdExample : Str :=
  s2l "## S1\n" ++ List.replicate 1500 'a' ++ s2l "\n## S2\n" ++
    List.replicate 200 'b'

/-- The rows that the chunk loop of `syncFile` writes for a chunk list when
every embedding call succeeds: one row per chunk of at most 4000 characters,
in chunk order. -/
def keptRows {V E : Type} (embed : Str → Except E V) (filePath fileHash : Str)
    (fileType : FileType) (cs : List Chunk) : List (DbRow V) :=
  cs.filterMap (fun c =>
    if 4000 < c.content.length then none
    else
      match embed c.content with
      | .ok v => some (rowOfChunk filePath fileHash fileType c v)
      | .error _ => none)

/-- A one-row table state used for concrete instantiations: path `a.md`
indexed with fingerprint `old`. -/
def wStore : List (DbRow Unit) :=
  [{ file_path := s2l "a.md"
     file_hash := s2l "old"
     file_type := FileType.md
     chunk_index := 0
     chunk_hash := s2l "k"
     content := s2l "prev"
     token_count := 1
     embedding := ()
     «section» := none
     language := none }]

/-- An embedding oracle that always succeeds. -/
def embedOk : Str → Except Unit Unit := fun _ => .ok ()

/-- An embedding oracle that always throws (unreachable service). -/
def embedFail : Str → Except Unit Unit := fun _ => .error ()

/-- A one-row vector-store state for concrete query instantiations: a single
chunk whose embedding is the one-dimensional vector `[1]`. -/
def qRow1 : DbRow (List ℝ) :=
  { file_path := s2l "v.md"
    file_hash := s2l "h"
    file_type := FileType.md
    chunk_index := 0
    chunk_hash := s2l "ch"
    content := s2l "x"
    token_count := 0
    embedding := [1]
    «section» := none
    language := none }

/-! ### Theorems -/

theorem chunkPlainTextLoop_succ (hashFn : Str → Str) (content : Str)
    (fuel start i : Nat) :
    chunkPlainTextLoop hashFn content (fuel + 1) start i =
      if start < content.length then
        if min (start + MAX_CHUNK_SIZE) content.length - OVERLAP_SIZE ≤ start then
          [createChunk hashFn
            (sliceL content start (min (start + MAX_CHUNK_SIZE) content.length)) i none]
        else
          createChunk hashFn
            (sliceL content start (min (start + MAX_CHUNK_SIZE) content.length)) i none ::
            chunkPlainTextLoop hashFn content fuel
              (min (start + MAX_CHUNK_SIZE) content.length - OVERLAP_SIZE) (i + 1)
      else [] := rfl

theorem max_chunk_size_eq : MAX_CHUNK_SIZE = 1024 := rfl

theorem overlap_size_eq : OVERLAP_SIZE = 100 := rfl

theorem chunkPlainText_break_end (content : Str) (start : Nat)
    (h : start < content.length)
    (hb : min (start + MAX_CHUNK_SIZE) content.length - OVERLAP_SIZE ≤ start) :
    min (start + MAX_CHUNK_SIZE) content.length = content.length := by
  rcases le_or_lt (start + MAX_CHUNK_SIZE) content.length with h' | h'
  · rw [Nat.min_eq_left h'] at hb
    rw [max_chunk_size_eq] at hb
    rw [overlap_size_eq] at hb
    exact absurd hb (by omega)
  · exact Nat.min_eq_right (Nat.le_of_lt h')

theorem sliceL_length (l : Str) (s e : Nat) (he : e ≤ l.length) :
    (sliceL l s e).length = e - s := by
  simp only [sliceL, List.length_take, List.length_drop]
  omega

theorem chunkPlainTextLoop_length_le (hashFn : Str → Str) (content : Str) :
    ∀ fuel start i, content.length - start < fuel →
      (chunkPlainTextLoop hashFn content fuel start i).length ≤
        (content.length - start + (MAX_CHUNK_SIZE - OVERLAP_SIZE) - 1) /
          (MAX_CHUNK_SIZE - OVERLAP_SIZE) + 1 := by
  intro fuel
  induction fuel with
  | zero => intro start i h; omega
  | succ fuel ih =>
    intro start i h
    rw [chunkPlainTextLoop_succ]
    by_cases hs : start < content.length
    · rw [if_pos hs]
      by_cases hb : min (start + MAX_CHUNK_SIZE) content.length - OVERLAP_SIZE ≤ start
      · rw [if_pos hb]
        simp
      · rw [if_neg hb]
        rw [max_chunk_size_eq, overlap_size_eq] at hb ⊢
        rcases le_or_lt (start + 1024) content.length with h' | h'
        · -- full window: the next start advances by MAX - OVERLAP
          rw [Nat.min_eq_left h'] at hb ⊢
          have hrec := ih (start + 1024 - 100) (i + 1) (by omega)
          rw [max_chunk_size_eq, overlap_size_eq] at hrec
          simp only [List.length_cons]
          omega
        · -- tail window: the recursion emits exactly one more chunk
          rw [Nat.min_eq_right (Nat.le_of_lt h')] at hb ⊢
          rcases fuel with _ | fuel'
          · omega
          · rw [chunkPlainTextLoop_succ]
            rw [max_chunk_size_eq, overlap_size_eq]
            have hs2 : content.length - 100 < content.length := by omega
            rw [if_pos hs2]
            have hmin2 : min (content.length - 100 + 1024) content.length =
                content.length := Nat.min_eq_right (by omega)
            rw [hmin2, if_pos (by omega)]
            simp only [List.length_cons, List.length_nil]
            omega
    · rw [if_neg hs]
      simp

/-- C5 counterexample: a 101-character input yields 2 chunks, exceeding the
claimed bound `ceil(101 / (1024 - 100)) = 1`. -/
theorem c5_counterexample :
    (chunkPlainText (fun s => s) (List.replicate 101 'a')).length = 2 ∧
      ¬((chunkPlainText (fun s => s) (List.replicate 101 'a')).length ≤
        (101 + (MAX_CHUNK_SIZE - OVERLAP_SIZE) - 1) /
          (MAX_CHUNK_SIZE - OVERLAP_SIZE)) := by
  constructor <;> decide

/-- C5 (amended): fixed-window chunking always terminates (the embedded
function is total), and the number of produced chunks is bounded by
`ceil(length / (maxSize - overlap)) + 1`: the loop can additionally emit one
trailing chunk covering only the final overlap window. -/
theorem c5_chunk_count_bound (hashFn : Str → Str) (content : Str) :
    (chunkPlainText hashFn content).length ≤
      (content.length + (MAX_CHUNK_SIZE - OVERLAP_SIZE) - 1) /
        (MAX_CHUNK_SIZE - OVERLAP_SIZE) + 1 := by
  have := chunkPlainTextLoop_length_le hashFn content (content.length + 1) 0 0
    (by omega)
  simpa [chunkPlainText] using this

theorem chunkPlainTextLoop_content_bound (hashFn : Str → Str) (content : Str) :
    ∀ fuel start i, ∀ c ∈ chunkPlainTextLoop hashFn content fuel start i,
      0 < c.content.length ∧ c.content.length ≤ MAX_CHUNK_SIZE := by
  intro fuel
  induction fuel with
  | zero => intro start i c hc; simp [chunkPlainTextLoop] at hc
  | succ fuel ih =>
    intro start i c hc
    rw [chunkPlainTextLoop_succ] at hc
    by_cases hs : start < content.length
    · rw [if_pos hs] at hc
      have hchunk : ∀ j, c = createChunk hashFn
          (sliceL content start (min (start + MAX_CHUNK_SIZE) content.length)) j none →
          0 < c.content.length ∧ c.content.length ≤ MAX_CHUNK_SIZE := by
        intro j hj
        subst hj
        have he : min (start + MAX_CHUNK_SIZE) content.length ≤ content.length :=
          Nat.min_le_right _ _
        have he2 : start < min (start + MAX_CHUNK_SIZE) content.length := by
          apply lt_min
          · rw [max_chunk_size_eq]; omega
          · exact hs
        have he3 : min (start + MAX_CHUNK_SIZE) content.length ≤
            start + MAX_CHUNK_SIZE := Nat.min_le_left _ _
        simp only [createChunk, sliceL_length _ _ _ he]
        omega
      by_cases hb : min (start + MAX_CHUNK_SIZE) content.length - OVERLAP_SIZE ≤ start
      · rw [if_pos hb] at hc
        rw [List.mem_singleton] at hc
        exact hchunk i hc
      · rw [if_neg hb] at hc
        rcases List.mem_cons.mp hc with hc | hc
        · exact hchunk i hc
        · exact ih _ _ c hc
    · rw [if_neg hs] at hc
      simp at hc

/-- C10: for every non-Markdown file type, every chunk produced by
`chunkDocument` is non-empty and at most `MAX_CHUNK_SIZE` (1024) characters
long; in particular it is never longer than 4000 characters, so the write
path's oversized-chunk skip can only ever fire on Markdown chunks. -/
theorem c10_plaintext_chunk_size (hashFn : Str → Str) (filePath content : Str)
    (ft : FileType) (hft : ft ≠ FileType.md) :
    ∀ c ∈ chunkDocument hashFn filePath content ft,
      0 < c.content.length ∧ c.content.length ≤ MAX_CHUNK_SIZE ∧
        ¬(4000 < c.content.length) := by
  intro c hc
  have hb : 0 < c.content.length ∧ c.content.length ≤ MAX_CHUNK_SIZE := by
    cases ft with
    | md => exact absurd rfl hft
    | ts => exact chunkPlainTextLoop_content_bound hashFn content _ 0 0 c hc
    | tsx => exact chunkPlainTextLoop_content_bound hashFn content _ 0 0 c hc
    | json => exact chunkPlainTextLoop_content_bound hashFn content _ 0 0 c hc
  refine ⟨hb.1, hb.2, ?_⟩
  have := hb.2
  rw [max_chunk_size_eq] at this
  omega

theorem c10_plaintext_chunk_size_witness :
    0 < (createChunk (fun s => s) (s2l "hi") 0 none).content.length ∧
      (createChunk (fun s => s) (s2l "hi") 0 none).content.length ≤
        MAX_CHUNK_SIZE ∧
      ¬(4000 < (createChunk (fun s => s) (s2l "hi") 0 none).content.length) :=
  c10_plaintext_chunk_size (fun s => s) (s2l "a.ts") (s2l "hi") FileType.ts
    (by decide) _ (by decide)

theorem sliceL_to_end (l : Str) (s : Nat) : sliceL l s l.length = l.drop s := by
  simp only [sliceL]
  apply List.take_of_length_le
  simp

theorem drop_sliceL (l : Str) (s e n : Nat) :
    (sliceL l s e).drop n = sliceL l (s + n) e := by
  simp only [sliceL, List.drop_take, List.drop_drop]
  rw [Nat.sub_sub]

theorem sliceL_append_drop (l : Str) (a b : Nat) (hab : a ≤ b)
    (hb : b ≤ l.length) :
    sliceL l a b ++ l.drop b = l.drop a := by
  have : l.drop b = (l.drop a).drop (b - a) := by
    rw [List.drop_drop, Nat.add_sub_cancel' hab]
  rw [this, sliceL]
  exact List.take_append_drop _ _

theorem chunkPlainTextLoop_flatten (hashFn : Str → Str) (content : Str) :
    ∀ fuel start i, content.length - start < fuel → start < content.length →
      ((chunkPlainTextLoop hashFn content fuel start i).map
        (fun c => c.content.drop OVERLAP_SIZE)).flatten =
        content.drop (start + OVERLAP_SIZE) := by
  intro fuel
  induction fuel with
  | zero => intro start i h hs; omega
  | succ fuel ih =>
    intro start i h hs
    rw [chunkPlainTextLoop_succ, if_pos hs]
    by_cases hb : min (start + MAX_CHUNK_SIZE) content.length - OVERLAP_SIZE ≤ start
    · rw [if_pos hb]
      have he := chunkPlainText_break_end content start hs hb
      simp only [List.map_cons, List.map_nil, List.flatten_cons, List.flatten_nil,
        List.append_nil, createChunk]
      rw [he, sliceL_to_end, List.drop_drop, Nat.add_comm]
    · rw [if_neg hb]
      have he : min (start + MAX_CHUNK_SIZE) content.length ≤ content.length :=
        Nat.min_le_right _ _
      have hgt : start + OVERLAP_SIZE < min (start + MAX_CHUNK_SIZE) content.length := by
        rw [overlap_size_eq] at hb ⊢
        omega
      have hlt : min (start + MAX_CHUNK_SIZE) content.length - OVERLAP_SIZE <
          content.length := by
        rw [overlap_size_eq] at hb ⊢
        omega
      have hrec := ih (min (start + MAX_CHUNK_SIZE) content.length - OVERLAP_SIZE)
        (i + 1) (by omega) hlt
      simp only [List.map_cons, List.flatten_cons, createChunk]
      rw [hrec, drop_sliceL]
      have hE : min (start + MAX_CHUNK_SIZE) content.length - OVERLAP_SIZE +
          OVERLAP_SIZE = min (start + MAX_CHUNK_SIZE) content.length := by
        rw [overlap_size_eq] at hb ⊢
        omega
      rw [hE, sliceL_append_drop _ _ _ (Nat.le_of_lt hgt) he]

/-- C6 (amended): for every non-Markdown file type (plain-text fixed-window
chunking), concatenating all chunks' non-overlapping portions reconstructs
the original content exactly. -/
theorem c6_plaintext_coverage (hashFn : Str → Str) (filePath content : Str)
    (ft : FileType) (hft : ft ≠ FileType.md) :
    reconstruct (chunkDocument hashFn filePath content ft) = content := by
  have hplain : reconstruct (chunkPlainText hashFn content) = content := by
    rw [chunkPlainText, chunkPlainTextLoop_succ]
    by_cases hs : 0 < content.length
    · rw [if_pos hs]
      by_cases hb : min (0 + MAX_CHUNK_SIZE) content.length - OVERLAP_SIZE ≤ 0
      · rw [if_pos hb]
        have he := chunkPlainText_break_end content 0 hs hb
        simp only [reconstruct, List.map_nil, List.flatten_nil, List.append_nil,
          createChunk]
        rw [he, sliceL_to_end, List.drop_zero]
      · rw [if_neg hb]
        have he : min (0 + MAX_CHUNK_SIZE) content.length ≤ content.length :=
          Nat.min_le_right _ _
        have hlt : min (0 + MAX_CHUNK_SIZE) content.length - OVERLAP_SIZE <
            content.length := by
          rw [overlap_size_eq] at hb ⊢
          omega
        have hrec := chunkPlainTextLoop_flatten hashFn content content.length
          (min (0 + MAX_CHUNK_SIZE) content.length - OVERLAP_SIZE) 1
          (by omega) hlt
        simp only [reconstruct, createChunk]
        rw [hrec]
        have hE : min (0 + MAX_CHUNK_SIZE) content.length - OVERLAP_SIZE +
            OVERLAP_SIZE = min (0 + MAX_CHUNK_SIZE) content.length := by
          rw [overlap_size_eq] at hb ⊢
          omega
        rw [hE, sliceL_append_drop _ _ _ (by omega) he, List.drop_zero]
    · rw [if_neg hs]
      simp only [reconstruct]
      have : content = [] := List.length_eq_zero.mp (by omega)
      rw [this]
  cases ft with
  | md => exact absurd rfl hft
  | ts => exact hplain
  | tsx => exact hplain
  | json => exact hplain

theorem c6_plaintext_coverage_witness :
    reconstruct (chunkDocument (fun s => s) (s2l "a.ts") (s2l "hello")
      FileType.ts) = s2l "hello" :=
  c6_plaintext_coverage (fun s => s) (s2l "a.ts") (s2l "hello") FileType.ts
    (by decide)

/-- C6 counterexample: for a Markdown file the heading line is moved into
the section label and whitespace is trimmed, so concatenating the chunks'
non-overlapping portions does not reconstruct the content. -/
theorem c6_markdown_counterexample :
    reconstruct (chunkDocument (fun s => s) (s2l "doc.md") (s2l "# H\nabc")
        FileType.md) = s2l "abc" ∧
      s2l "abc" ≠ s2l "# H\nabc" := by
  constructor <;> decide

/-- C7 counterexample: on the spec's example input (two `##` sections with
1500- and 200-character bodies) the Markdown chunker yields 2 chunks, not
the claimed 3: the per-part size check fires at most once per split part,
so section 1's whole 1500-character body is emitted as a single chunk. -/
theorem c7_counterexample :
    (chunkDocument (fun s => s) (s2l "doc.md") mdExample FileType.md).length = 2 ∧
      (chunkDocument (fun s => s) (s2l "doc.md") mdExample FileType.md).length ≠ 3 := by
  constructor <;> decide

/-- C7 (amended): on that input the chunker yields exactly 2 chunks: the
whole 1500-character body of section 1 as one chunk labelled `S1`, and one
301-character chunk labelled `S2` consisting of the 99-character overlap
remnant of section 1, the two separating newlines, and section 2's
200-character body. -/
theorem c7_markdown_example :
    (chunkDocument (fun s => s) (s2l "doc.md") mdExample FileType.md).map
        (fun c => (c.content.length, c.index, c.«section»)) =
      [(1500, 0, some (s2l "S1")), (301, 1, some (s2l "S2"))] ∧
      (chunkDocument (fun s => s) (s2l "doc.md") mdExample FileType.md).map
          (fun c => c.content.take 101) =
        [List.replicate 101 'a', List.replicate 99 'a' ++ s2l "\n\n"] := by
  constructor <;> decide

theorem syncFile_skip_iff {V E : Type} (hashFn : Str → Str)
    (embed : Str → Except E V) (store : List (DbRow V))
    (filePath content : Str) (force : Bool) :
    syncFile hashFn embed store filePath content force =
        (.ok ⟨0, true⟩, ([] : List (SyncEv V))) ↔
      (force = false ∧ storedFingerprint store filePath = some (hashFn content)) := by
  have hcond : (!force && (match (store.filter
        (fun r => r.file_path == filePath)).head? with
      | some r => r.file_hash == hashFile hashFn content
      | none => false)) = true ↔
      (force = false ∧ storedFingerprint store filePath = some (hashFn content)) := by
    cases force with
    | true => simp
    | false =>
      cases h : (store.filter (fun r => r.file_path == filePath)).head? with
      | none =>
        simp only [storedFingerprint, h, Option.map_none', Bool.not_false,
          Bool.true_and, true_and]
        simp
      | some r =>
        simp only [storedFingerprint, h, Option.map_some', Bool.not_false,
          Bool.true_and, beq_iff_eq, Option.some.injEq, hashFile, true_and]
  constructor
  · intro heq
    by_cases hb : (!force && (match (store.filter
        (fun r => r.file_path == filePath)).head? with
      | some r => r.file_hash == hashFile hashFn content
      | none => false)) = true
    · exact hcond.mp hb
    · exfalso
      have h2 := congrArg Prod.snd heq
      simp only [syncFile, hb, if_false] at h2
      exact List.cons_ne_nil _ _ h2
  · intro hr
    have hb := hcond.mpr hr
    simp only [syncFile, hb, if_true]

theorem syncFile_proceed_eq {V E : Type} (hashFn : Str → Str)
    (embed : Str → Except E V) (store : List (DbRow V))
    (filePath content : Str) (force : Bool)
    (h : ¬(force = false ∧ storedFingerprint store filePath = some (hashFn content))) :
    syncFile hashFn embed store filePath content force =
      ((processChunks embed filePath (hashFile hashFn content)
          (getFileType filePath)
          (chunkDocument hashFn filePath content (getFileType filePath)) 0).1.map
        (fun created => ⟨created, false⟩),
       SyncEv.deleteFile filePath ::
        SyncEv.chunked (chunkDocument hashFn filePath content (getFileType filePath)) ::
        (processChunks embed filePath (hashFile hashFn content)
          (getFileType filePath)
          (chunkDocument hashFn filePath content (getFileType filePath)) 0).2) := by
  have hcond : (!force && (match (store.filter
        (fun r => r.file_path == filePath)).head? with
      | some r => r.file_hash == hashFile hashFn content
      | none => false)) = false := by
    rw [Bool.eq_false_iff]
    intro hb
    apply h
    cases force with
    | true => simp at hb
    | false =>
      refine ⟨rfl, ?_⟩
      cases hh : (store.filter (fun r => r.file_path == filePath)).head? with
      | none => rw [hh] at hb; simp at hb
      | some r =>
        rw [hh] at hb
        simp only [Bool.not_false, Bool.true_and, beq_iff_eq] at hb
        simp only [storedFingerprint, hh, Option.map_some', Option.some.injEq,
          hashFile] at hb ⊢
        exact hb
  simp only [syncFile, hcond, Bool.false_eq_true, if_false]

/-- C1: `syncFile` skips (returns `{chunks: 0, skipped: true}` with an empty
effect trace — no chunking, no embedding call, no store statement) exactly
when `force` is unset and the stored fingerprint for the path equals the
digest of the current content; in every other case it proceeds, and its
trace shows the delete and the chunking happening only after the comparison
decided to proceed. -/
theorem c1_change_detection {V E : Type} (hashFn : Str → Str)
    (embed : Str → Except E V) (store : List (DbRow V))
    (filePath content : Str) (force : Bool) :
    (syncFile hashFn embed store filePath content force =
        (.ok ⟨0, true⟩, ([] : List (SyncEv V))) ↔
      (force = false ∧ storedFingerprint store filePath = some (hashFn content)))
    ∧ (¬(force = false ∧ storedFingerprint store filePath = some (hashFn content)) →
        ∃ evs, (syncFile hashFn embed store filePath content force).2 =
          SyncEv.deleteFile filePath ::
            SyncEv.chunked (chunkDocument hashFn filePath content
              (getFileType filePath)) :: evs) := by
  refine ⟨syncFile_skip_iff hashFn embed store filePath content force, ?_⟩
  intro h
  exact ⟨_, congrArg Prod.snd
    (syncFile_proceed_eq hashFn embed store filePath content force h)⟩

theorem c1_change_detection_witness :
    (syncFile (fun s => s) embedOk wStore (s2l "a.md") (s2l "prev") false =
        (.ok ⟨0, true⟩, ([] : List (SyncEv Unit))) ↔
      (false = false ∧ storedFingerprint wStore (s2l "a.md") =
        some ((fun (s : Str) => s) (s2l "prev")))) ∧
    (¬(false = false ∧ storedFingerprint wStore (s2l "a.md") =
        some ((fun (s : Str) => s) (s2l "prev"))) →
      ∃ evs, (syncFile (fun s => s) embedOk wStore (s2l "a.md") (s2l "prev") false).2 =
        SyncEv.deleteFile (s2l "a.md") ::
          SyncEv.chunked (chunkDocument (fun s => s) (s2l "a.md") (s2l "prev")
            (getFileType (s2l "a.md"))) :: evs) :=
  c1_change_detection (fun s => s) embedOk wStore (s2l "a.md") (s2l "prev") false

theorem replay_no_delete {V : Type} :
    ∀ evs : List (SyncEv V), (∀ p, SyncEv.deleteFile p ∉ evs) →
      ∀ store, replay store evs = store ++ insertedRows evs := by
  intro evs
  induction evs with
  | nil => intro _ store; simp [replay, insertedRows]
  | cons e evs ih =>
    intro h store
    have h' : ∀ p, SyncEv.deleteFile p ∉ evs :=
      fun p hp => h p (List.mem_cons_of_mem _ hp)
    cases e with
    | deleteFile p => exact absurd (List.mem_cons_self _ _) (h p)
    | chunked cs =>
      show replay (applyEv store _) evs = _
      rw [applyEv, ih h']
      simp [insertedRows]
    | embedCall t =>
      show replay (applyEv store _) evs = _
      rw [applyEv, ih h']
      simp [insertedRows]
    | insertRow r =>
      show replay (applyEv store _) evs = _
      rw [applyEv, ih h']
      simp [insertedRows]

theorem processChunks_no_delete {V E : Type} (embed : Str → Except E V)
    (filePath fileHash : Str) (fileType : FileType) :
    ∀ (cs : List Chunk) (n : Nat) (q : Str),
      SyncEv.deleteFile q ∉ (processChunks embed filePath fileHash fileType cs n).2 := by
  intro cs
  induction cs with
  | nil => intro n q; simp [processChunks]
  | cons c cs ih =>
    intro n q
    simp only [processChunks]
    by_cases hov : 4000 < c.content.length
    · rw [if_pos hov]
      exact ih n q
    · rw [if_neg hov]
      cases he : embed c.content with
      | error err => simp
      | ok v =>
        simp only [List.mem_cons]
        rintro (h | h | h)
        · exact SyncEv.noConfusion h
        · exact SyncEv.noConfusion h
        · exact ih (n + 1) q h

theorem processChunks_inserted_of_ok {V E : Type} (embed : Str → Except E V)
    (filePath fileHash : Str) (fileType : FileType) :
    ∀ (cs : List Chunk) (n m : Nat),
      (processChunks embed filePath fileHash fileType cs n).1 = .ok m →
      insertedRows (processChunks embed filePath fileHash fileType cs n).2 =
        keptRows embed filePath fileHash fileType cs := by
  intro cs
  induction cs with
  | nil => intro n m _; simp [processChunks, insertedRows, keptRows]
  | cons c cs ih =>
    intro n m hok
    by_cases hov : 4000 < c.content.length
    · have heq : processChunks embed filePath fileHash fileType (c :: cs) n =
          processChunks embed filePath fileHash fileType cs n := by
        simp only [processChunks, if_pos hov]
      rw [heq] at hok ⊢
      have hR : keptRows embed filePath fileHash fileType (c :: cs) =
          keptRows embed filePath fileHash fileType cs := by
        simp only [keptRows, List.filterMap_cons, if_pos hov]
      rw [hR]
      exact ih n m hok
    · cases he : embed c.content with
      | error err =>
        have heq : processChunks embed filePath fileHash fileType (c :: cs) n =
            (.error err, [SyncEv.embedCall c.content]) := by
          simp only [processChunks, if_neg hov, he]
        rw [heq] at hok
        exact Except.noConfusion hok
      | ok v =>
        have heq : processChunks embed filePath fileHash fileType (c :: cs) n =
            ((processChunks embed filePath fileHash fileType cs (n + 1)).1,
             SyncEv.embedCall c.content ::
               SyncEv.insertRow (rowOfChunk filePath fileHash fileType c v) ::
               (processChunks embed filePath fileHash fileType cs (n + 1)).2) := by
          simp only [processChunks, if_neg hov, he]
        rw [heq] at hok ⊢
        have hL : insertedRows (SyncEv.embedCall c.content ::
            SyncEv.insertRow (rowOfChunk filePath fileHash fileType c v) ::
            (processChunks embed filePath fileHash fileType cs (n + 1)).2) =
            rowOfChunk filePath fileHash fileType c v ::
              insertedRows (processChunks embed filePath fileHash fileType cs (n + 1)).2 :=
          rfl
        have hR : keptRows embed filePath fileHash fileType (c :: cs) =
            rowOfChunk filePath fileHash fileType c v ::
              keptRows embed filePath fileHash fileType cs := by
          simp only [keptRows, List.filterMap_cons, if_neg hov, he]
        rw [hL, hR, ih (n + 1) m hok]

theorem keptRows_mem {V E : Type} (embed : Str → Except E V)
    (filePath fileHash : Str) (fileType : FileType) (cs : List Chunk) :
    ∀ r ∈ keptRows embed filePath fileHash fileType cs,
      ∃ c ∈ cs, ∃ v, r = rowOfChunk filePath fileHash fileType c v := by
  intro r hr
  rw [keptRows, List.mem_filterMap] at hr
  obtain ⟨c, hc, hmap⟩ := hr
  by_cases hov : 4000 < c.content.length
  · rw [if_pos hov] at hmap
    exact Option.noConfusion hmap
  · rw [if_neg hov] at hmap
    cases he : embed c.content with
    | error err => rw [he] at hmap; exact Option.noConfusion hmap
    | ok v =>
      rw [he] at hmap
      exact ⟨c, hc, v, (Option.some.injEq _ _ ▸ hmap).symm⟩

theorem keptRows_pairwise_index {V E : Type} (embed : Str → Except E V)
    (filePath fileHash : Str) (fileType : FileType) :
    ∀ cs : List Chunk, List.Pairwise (fun a b => a.index < b.index) cs →
      List.Pairwise (fun a b : DbRow V => a.chunk_index < b.chunk_index)
        (keptRows embed filePath fileHash fileType cs) := by
  intro cs
  induction cs with
  | nil => intro _; simp [keptRows]
  | cons c cs ih =>
    intro hp
    rw [List.pairwise_cons] at hp
    rw [keptRows, List.filterMap_cons]
    by_cases hov : 4000 < c.content.length
    · rw [if_pos hov]
      exact ih hp.2
    · rw [if_neg hov]
      cases he : embed c.content with
      | error err => exact ih hp.2
      | ok v =>
        rw [List.pairwise_cons]
        refine ⟨?_, ih hp.2⟩
        intro r hr
        obtain ⟨c', hc', v', rfl⟩ := keptRows_mem embed filePath fileHash fileType cs r hr
        exact hp.1 c' hc'

theorem chunkPlainTextLoop_index_ge (hashFn : Str → Str) (content : Str) :
    ∀ fuel start i, ∀ c ∈ chunkPlainTextLoop hashFn content fuel start i,
      i ≤ c.index := by
  intro fuel
  induction fuel with
  | zero => intro start i c hc; simp [chunkPlainTextLoop] at hc
  | succ fuel ih =>
    intro start i c hc
    rw [chunkPlainTextLoop_succ] at hc
    by_cases hs : start < content.length
    · rw [if_pos hs] at hc
      by_cases hb : min (start + MAX_CHUNK_SIZE) content.length - OVERLAP_SIZE ≤ start
      · rw [if_pos hb, List.mem_singleton] at hc
        subst hc; exact Nat.le_refl _
      · rw [if_neg hb] at hc
        rcases List.mem_cons.mp hc with hc | hc
        · subst hc; exact Nat.le_refl _
        · exact Nat.le_of_succ_le (ih _ _ c hc)
    · rw [if_neg hs] at hc
      simp at hc

theorem chunkPlainTextLoop_index_pairwise (hashFn : Str → Str) (content : Str) :
    ∀ fuel start i, List.Pairwise (fun a b => a.index < b.index)
      (chunkPlainTextLoop hashFn content fuel start i) := by
  intro fuel
  induction fuel with
  | zero => intro start i; simp [chunkPlainTextLoop]
  | succ fuel ih =>
    intro start i
    rw [chunkPlainTextLoop_succ]
    by_cases hs : start < content.length
    · rw [if_pos hs]
      by_cases hb : min (start + MAX_CHUNK_SIZE) content.length - OVERLAP_SIZE ≤ start
      · rw [if_pos hb]
        simp
      · rw [if_neg hb]
        rw [List.pairwise_cons]
        refine ⟨?_, ih _ _⟩
        intro c hc
        exact Nat.lt_of_lt_of_le (Nat.lt_succ_self i)
          (chunkPlainTextLoop_index_ge hashFn content fuel _ _ c hc)
    · rw [if_neg hs]
      simp

theorem chunkMarkdownLoop_index_ge (hashFn : Str → Str) :
    ∀ (parts : List Str) (sec cur : Str) (i : Nat),
      ∀ c ∈ chunkMarkdownLoop hashFn parts sec cur i, i ≤ c.index := by
  intro parts
  induction parts with
  | nil =>
    intro sec cur i c hc
    rw [chunkMarkdownLoop] at hc
    by_cases hne : jsTrim cur ≠ []
    · rw [if_pos hne, List.mem_singleton] at hc
      subst hc; exact Nat.le_refl _
    · rw [if_neg hne] at hc
      simp at hc
  | cons p ps ih =>
    intro sec cur i c hc
    rw [chunkMarkdownLoop] at hc
    by_cases hh : hasHeadingPrefix p
    · rw [if_pos hh] at hc
      exact ih _ _ _ c hc
    · rw [if_neg hh] at hc
      by_cases hbig : MAX_CHUNK_SIZE < (cur ++ p).length
      · rw [if_pos hbig] at hc
        rcases List.mem_cons.mp hc with hc | hc
        · subst hc; exact Nat.le_refl _
        · exact Nat.le_of_succ_le (ih _ _ _ c hc)
      · rw [if_neg hbig] at hc
        exact ih _ _ _ c hc

theorem chunkMarkdownLoop_index_pairwise (hashFn : Str → Str) :
    ∀ (parts : List Str) (sec cur : Str) (i : Nat),
      List.Pairwise (fun a b => a.index < b.index)
        (chunkMarkdownLoop hashFn parts sec cur i) := by
  intro parts
  induction parts with
  | nil =>
    intro sec cur i
    rw [chunkMarkdownLoop]
    by_cases hne : jsTrim cur ≠ []
    · rw [if_pos hne]; simp
    · rw [if_neg hne]; simp
  | cons p ps ih =>
    intro sec cur i
    rw [chunkMarkdownLoop]
    by_cases hh : hasHeadingPrefix p
    · rw [if_pos hh]; exact ih _ _ _
    · rw [if_neg hh]
      by_cases hbig : MAX_CHUNK_SIZE < (cur ++ p).length
      · rw [if_pos hbig]
        rw [List.pairwise_cons]
        refine ⟨?_, ih _ _ _⟩
        intro c hc
        exact Nat.lt_of_lt_of_le (Nat.lt_succ_self i)
          (chunkMarkdownLoop_index_ge hashFn ps _ _ _ c hc)
      · rw [if_neg hbig]
        exact ih _ _ _

theorem chunkDocument_index_pairwise (hashFn : Str → Str)
    (filePath content : Str) (ft : FileType) :
    List.Pairwise (fun a b => a.index < b.index)
      (chunkDocument hashFn filePath content ft) := by
  cases ft with
  | md => exact chunkMarkdownLoop_index_pairwise hashFn _ _ _ _
  | ts => exact chunkPlainTextLoop_index_pairwise hashFn content _ _ _
  | tsx => exact chunkPlainTextLoop_index_pairwise hashFn content _ _ _
  | json => exact chunkPlainTextLoop_index_pairwise hashFn content _ _ _

theorem replay_cons {V : Type} (store : List (DbRow V)) (e : SyncEv V)
    (evs : List (SyncEv V)) :
    replay store (e :: evs) = replay (applyEv store e) evs := rfl

theorem syncFile_success_final {V E : Type} (hashFn : Str → Str)
    (embed : Str → Except E V) (store : List (DbRow V))
    (filePath content : Str) (force : Bool) (r : SyncFileResult)
    (hok : (syncFile hashFn embed store filePath content force).1 = .ok r)
    (hns : r.skipped = false) :
    replay store (syncFile hashFn embed store filePath content force).2 =
      store.filter (fun x => !(x.file_path == filePath)) ++
        keptRows embed filePath (hashFile hashFn content) (getFileType filePath)
          (chunkDocument hashFn filePath content (getFileType filePath)) := by
  by_cases hcond : (force = false ∧
      storedFingerprint store filePath = some (hashFn content))
  · exfalso
    have hskip := (syncFile_skip_iff hashFn embed store filePath content
      force).mpr hcond
    have h1 := congrArg Prod.fst hskip
    rw [hok] at h1
    injection h1 with h2
    rw [h2] at hns
    exact Bool.noConfusion hns
  · have heq := syncFile_proceed_eq hashFn embed store filePath content force hcond
    rw [heq] at hok ⊢
    obtain ⟨m, hm⟩ : ∃ m, (processChunks embed filePath (hashFile hashFn content)
        (getFileType filePath)
        (chunkDocument hashFn filePath content (getFileType filePath)) 0).1 =
        .ok m := by
      cases hp : (processChunks embed filePath (hashFile hashFn content)
          (getFileType filePath)
          (chunkDocument hashFn filePath content (getFileType filePath)) 0).1 with
      | ok m => exact ⟨m, rfl⟩
      | error e =>
        rw [hp] at hok
        exact Except.noConfusion hok
    rw [replay_cons, replay_cons]
    rw [show applyEv store (SyncEv.deleteFile filePath) =
      store.filter (fun x => !(x.file_path == filePath)) from rfl]
    rw [show applyEv (store.filter (fun x => !(x.file_path == filePath)))
      (SyncEv.chunked (chunkDocument hashFn filePath content
        (getFileType filePath))) =
      store.filter (fun x => !(x.file_path == filePath)) from rfl]
    rw [replay_no_delete _
      (fun q => processChunks_no_delete embed filePath (hashFile hashFn content)
        (getFileType filePath)
        (chunkDocument hashFn filePath content (getFileType filePath)) 0 q) _]
    rw [processChunks_inserted_of_ok embed filePath (hashFile hashFn content)
      (getFileType filePath)
      (chunkDocument hashFn filePath content (getFileType filePath)) 0 m hm]

theorem filter_path_of_filter_not {V : Type} (store : List (DbRow V)) (p : Str) :
    (store.filter (fun x => !(x.file_path == p))).filter
      (fun x => x.file_path == p) = [] := by
  rw [List.filter_eq_nil_iff]
  intro a ha
  have := (List.mem_filter.mp ha).2
  simp only [Bool.not_eq_true'] at this
  simp [this]

theorem keptRows_filter_path {V E : Type} (embed : Str → Except E V)
    (filePath fileHash : Str) (fileType : FileType) (cs : List Chunk) :
    (keptRows embed filePath fileHash fileType cs).filter
      (fun x => x.file_path == filePath) =
      keptRows embed filePath fileHash fileType cs := by
  rw [List.filter_eq_self]
  intro a ha
  obtain ⟨c, _, v, rfl⟩ := keptRows_mem embed filePath fileHash fileType cs a ha
  simp [rowOfChunk]

/-- C2: after a successful (non-skipped) `syncFile`, the table holds exactly
the newly written rows for the path (every prior row of the path is gone,
rows of other paths are untouched), and uniqueness of the key
`(file path, chunk index)` is preserved, because the delete of all prior
rows of the path precedes every insert. -/
theorem c2_replace_not_append {V E : Type} (hashFn : Str → Str)
    (embed : Str → Except E V) (store : List (DbRow V))
    (filePath content : Str) (force : Bool) (r : SyncFileResult)
    (hok : (syncFile hashFn embed store filePath content force).1 = .ok r)
    (hns : r.skipped = false) :
    replay store (syncFile hashFn embed store filePath content force).2 =
      store.filter (fun x => !(x.file_path == filePath)) ++
        keptRows embed filePath (hashFile hashFn content) (getFileType filePath)
          (chunkDocument hashFn filePath content (getFileType filePath)) ∧
    (replay store (syncFile hashFn embed store filePath content force).2).filter
        (fun x => x.file_path == filePath) =
      keptRows embed filePath (hashFile hashFn content) (getFileType filePath)
        (chunkDocument hashFn filePath content (getFileType filePath)) ∧
    (List.Pairwise (fun a b : DbRow V =>
        ¬(a.file_path = b.file_path ∧ a.chunk_index = b.chunk_index)) store →
      List.Pairwise (fun a b : DbRow V =>
        ¬(a.file_path = b.file_path ∧ a.chunk_index = b.chunk_index))
        (replay store (syncFile hashFn embed store filePath content force).2)) := by
  have hfin := syncFile_success_final hashFn embed store filePath content force r
    hok hns
  refine ⟨hfin, ?_, ?_⟩
  · rw [hfin, List.filter_append, filter_path_of_filter_not,
      keptRows_filter_path, List.nil_append]
  · intro hstore
    rw [hfin]
    rw [List.pairwise_append]
    refine ⟨List.Pairwise.sublist (List.filter_sublist _) hstore, ?_, ?_⟩
    · have hidx := keptRows_pairwise_index embed filePath
        (hashFile hashFn content) (getFileType filePath)
        (chunkDocument hashFn filePath content (getFileType filePath))
        (chunkDocument_index_pairwise hashFn filePath content
          (getFileType filePath))
      exact hidx.imp (fun h hk => absurd hk.2 (Nat.ne_of_lt h))
    · intro a ha b hb
      have hap : (a.file_path == filePath) = false := by
        have := (List.mem_filter.mp ha).2
        simpa using this
      obtain ⟨c, _, v, rfl⟩ := keptRows_mem embed filePath
        (hashFile hashFn content) (getFileType filePath)
        (chunkDocument hashFn filePath content (getFileType filePath)) b hb
      intro hk
      rw [show (rowOfChunk filePath (hashFile hashFn content)
        (getFileType filePath) c v).file_path = filePath from rfl] at hk
      rw [hk.1] at hap
      simp at hap

theorem c2_replace_not_append_witness :
    (replay wStore (syncFile (fun s => s) embedOk wStore (s2l "a.md")
        (s2l "hi") false).2).filter (fun x => x.file_path == s2l "a.md") =
      keptRows embedOk (s2l "a.md") (hashFile (fun s => s) (s2l "hi"))
        (getFileType (s2l "a.md"))
        (chunkDocument (fun s => s) (s2l "a.md") (s2l "hi")
          (getFileType (s2l "a.md"))) :=
  (c2_replace_not_append (fun s => s) embedOk wStore (s2l "a.md") (s2l "hi")
    false ⟨1, false⟩ rfl rfl).2.1

theorem insertedRows_take_prefixOf {V : Type} (evs : List (SyncEv V)) (k : Nat) :
    insertedRows (evs.take k) <+: insertedRows evs := by
  refine ⟨insertedRows (evs.drop k), ?_⟩
  rw [insertedRows, insertedRows, insertedRows, ← List.filterMap_append,
    List.take_append_drop]

theorem processChunks_inserted_paths {V E : Type} (embed : Str → Except E V)
    (filePath fileHash : Str) (fileType : FileType) :
    ∀ (cs : List Chunk) (n : Nat),
      ∀ r ∈ insertedRows (processChunks embed filePath fileHash fileType cs n).2,
        r.file_path = filePath ∧ r.file_hash = fileHash := by
  intro cs
  induction cs with
  | nil => intro n r hr; simp [processChunks, insertedRows] at hr
  | cons c cs ih =>
    intro n r hr
    by_cases hov : 4000 < c.content.length
    · have heq : processChunks embed filePath fileHash fileType (c :: cs) n =
          processChunks embed filePath fileHash fileType cs n := by
        simp only [processChunks, if_pos hov]
      rw [heq] at hr
      exact ih n r hr
    · cases he : embed c.content with
      | error err =>
        have heq : processChunks embed filePath fileHash fileType (c :: cs) n =
            (.error err, [SyncEv.embedCall c.content]) := by
          simp only [processChunks, if_neg hov, he]
        rw [heq] at hr
        simp [insertedRows] at hr
      | ok v =>
        have heq : processChunks embed filePath fileHash fileType (c :: cs) n =
            ((processChunks embed filePath fileHash fileType cs (n + 1)).1,
             SyncEv.embedCall c.content ::
               SyncEv.insertRow (rowOfChunk filePath fileHash fileType c v) ::
               (processChunks embed filePath fileHash fileType cs (n + 1)).2) := by
          simp only [processChunks, if_neg hov, he]
        rw [heq] at hr
        have hL : insertedRows (SyncEv.embedCall c.content ::
            SyncEv.insertRow (rowOfChunk filePath fileHash fileType c v) ::
            (processChunks embed filePath fileHash fileType cs (n + 1)).2) =
            rowOfChunk filePath fileHash fileType c v ::
              insertedRows (processChunks embed filePath fileHash fileType cs (n + 1)).2 :=
          rfl
        rw [hL] at hr
        rcases List.mem_cons.mp hr with hr | hr
        · subst hr; exact ⟨rfl, rfl⟩
        · exact ih (n + 1) r hr

/-- C3 counterexample: `syncFile` is not atomic on failure.  With one old
row stored for `a.md` and an embedding service that throws, re-syncing
changed content fails after the change check, yet the table afterwards has
no row at all for the path — the old chunks were not left in place. -/
theorem c3_counterexample :
    (syncFile (fun s => s) embedFail wStore (s2l "a.md") (s2l "hello")
        false).1 = .error () ∧
    (replay wStore (syncFile (fun s => s) embedFail wStore (s2l "a.md")
        (s2l "hello") false).2).filter (fun r => r.file_path == s2l "a.md") =
      [] ∧
    wStore.filter (fun r => r.file_path == s2l "a.md") ≠ [] :=
  ⟨rfl, rfl, by decide⟩

theorem trace_prefix_states {V : Type} (store : List (DbRow V)) (p : Str)
    (cs : List Chunk) (evs : List (SyncEv V))
    (hnodel : ∀ q, SyncEv.deleteFile q ∉ evs)
    (hpaths : ∀ r ∈ insertedRows evs, r.file_path = p) :
    ∀ k, (replay store ((SyncEv.deleteFile p :: SyncEv.chunked cs ::
            evs).take k)).filter (fun x => x.file_path == p) =
          store.filter (fun x => x.file_path == p) ∨
        (replay store ((SyncEv.deleteFile p :: SyncEv.chunked cs ::
            evs).take k)).filter (fun x => x.file_path == p) <+:
          insertedRows evs := by
  intro k
  match k with
  | 0 => exact Or.inl rfl
  | 1 =>
    right
    have h1 : (SyncEv.deleteFile p :: SyncEv.chunked cs :: evs).take 1 =
        [SyncEv.deleteFile p] := rfl
    rw [h1, show replay store [SyncEv.deleteFile p] =
      store.filter (fun x => !(x.file_path == p)) from rfl,
      filter_path_of_filter_not]
    exact List.nil_prefix
  | (k + 2) =>
    right
    have h1 : (SyncEv.deleteFile p :: SyncEv.chunked cs :: evs).take (k + 2) =
        SyncEv.deleteFile p :: SyncEv.chunked cs :: evs.take k := rfl
    rw [h1, replay_cons, replay_cons,
      show applyEv store (SyncEv.deleteFile p) =
        store.filter (fun x => !(x.file_path == p)) from rfl,
      show applyEv (store.filter (fun x => !(x.file_path == p)))
        (SyncEv.chunked cs) =
        store.filter (fun x => !(x.file_path == p)) from rfl,
      replay_no_delete _ (fun q hq => hnodel q (List.mem_of_mem_take hq)) _,
      List.filter_append, filter_path_of_filter_not, List.nil_append]
    have hself : (insertedRows (evs.take k)).filter
        (fun x => x.file_path == p) = insertedRows (evs.take k) := by
      rw [List.filter_eq_self]
      intro a ha
      have := hpaths a ((insertedRows_take_prefixOf evs k).subset ha)
      simp [this]
    rw [hself]
    exact insertedRows_take_prefixOf evs k

/-- C3 (amended): when `syncFile` fails after the change check, the old
rows of the path have already been deleted and exactly the rows inserted
before the failure remain; at every intermediate point a reader sees either
the old row set or a prefix of the new rows for the path — never a mix of
old and new — because the single delete precedes all inserts. -/
theorem c3_failure_not_atomic {V E : Type} (hashFn : Str → Str)
    (embed : Str → Except E V) (store : List (DbRow V))
    (filePath content : Str) (force : Bool) (err : E)
    (herr : (syncFile hashFn embed store filePath content force).1 = .error err) :
    (replay store (syncFile hashFn embed store filePath content force).2 =
      store.filter (fun x => !(x.file_path == filePath)) ++
        insertedRows (syncFile hashFn embed store filePath content force).2) ∧
    (∀ k, (replay store ((syncFile hashFn embed store filePath content
            force).2.take k)).filter (fun x => x.file_path == filePath) =
          store.filter (fun x => x.file_path == filePath) ∨
        (replay store ((syncFile hashFn embed store filePath content
            force).2.take k)).filter (fun x => x.file_path == filePath) <+:
          insertedRows (syncFile hashFn embed store filePath content force).2) := by
  by_cases hcond : (force = false ∧
      storedFingerprint store filePath = some (hashFn content))
  · exfalso
    have hskip := (syncFile_skip_iff hashFn embed store filePath content
      force).mpr hcond
    have h1 := congrArg Prod.fst hskip
    rw [herr] at h1
    exact Except.noConfusion h1
  · have heq := syncFile_proceed_eq hashFn embed store filePath content force hcond
    rw [heq]
    have hnodel := processChunks_no_delete embed filePath
      (hashFile hashFn content) (getFileType filePath)
      (chunkDocument hashFn filePath content (getFileType filePath)) 0
    have hpaths := processChunks_inserted_paths embed filePath
      (hashFile hashFn content) (getFileType filePath)
      (chunkDocument hashFn filePath content (getFileType filePath)) 0
    constructor
    · rw [replay_cons, replay_cons]
      rw [show applyEv store (SyncEv.deleteFile filePath) =
        store.filter (fun x => !(x.file_path == filePath)) from rfl]
      rw [show ∀ s : List (DbRow V), applyEv s
        (SyncEv.chunked (chunkDocument hashFn filePath content
          (getFileType filePath))) = s from fun _ => rfl]
      rw [replay_no_delete _ (fun q => hnodel q) _]
      rfl
    · exact trace_prefix_states store filePath
        (chunkDocument hashFn filePath content (getFileType filePath))
        (processChunks embed filePath (hashFile hashFn content)
          (getFileType filePath)
          (chunkDocument hashFn filePath content (getFileType filePath)) 0).2
        hnodel (fun r hr => (hpaths r hr).1)

theorem c3_failure_not_atomic_witness :
    replay wStore (syncFile (fun s => s) embedFail wStore (s2l "a.md")
        (s2l "hello") false).2 =
      wStore.filter (fun x => !(x.file_path == s2l "a.md")) ++
        insertedRows (syncFile (fun s => s) embedFail wStore (s2l "a.md")
          (s2l "hello") false).2 :=
  (c3_failure_not_atomic (fun s => s) embedFail wStore (s2l "a.md")
    (s2l "hello") false () rfl).1

/-- C4 counterexample: for the empty file content, the first sync stores no
row, so a second sync of the identical content is *not* reported as skipped
(the fingerprint lookup finds no row); it merely creates zero chunks
again. -/
theorem c4_counterexample :
    (syncFile (fun s => s) embedOk ([] : List (DbRow Unit)) (s2l "e.md") []
        false).1 = .ok ⟨0, false⟩ ∧
    (syncFile (fun s => s) embedOk
        (replay ([] : List (DbRow Unit))
          (syncFile (fun s => s) embedOk [] (s2l "e.md") [] false).2)
        (s2l "e.md") [] false).1 = .ok ⟨0, false⟩ ∧
    SyncFileResult.mk 0 false ≠ SyncFileResult.mk 0 true :=
  ⟨rfl, rfl, by decide⟩

/-- C4 (amended): after one successful sync that stored at least one chunk
row, every further sync of the same unchanged content without `force` skips:
it returns `{chunks: 0, skipped: true}` with an empty trace (so the store is
unchanged and the embedding service is never called — the second sync here
uses an arbitrary other oracle `embed2`).  A sync that stored no row (for
example of empty content) is re-processed instead, as the counterexample
shows. -/
theorem c4_idempotent_resync {V E : Type} (hashFn : Str → Str)
    (embed embed2 : Str → Except E V) (store : List (DbRow V))
    (filePath content : Str) (force : Bool) (r : SyncFileResult)
    (hok : (syncFile hashFn embed store filePath content force).1 = .ok r)
    (hns : r.skipped = false)
    (hnz : keptRows embed filePath (hashFile hashFn content)
      (getFileType filePath)
      (chunkDocument hashFn filePath content (getFileType filePath)) ≠ []) :
    syncFile hashFn embed2
      (replay store (syncFile hashFn embed store filePath content force).2)
      filePath content false = (.ok ⟨0, true⟩, []) := by
  have hfin := syncFile_success_final hashFn embed store filePath content force
    r hok hns
  apply (syncFile_skip_iff hashFn embed2 _ filePath content false).mpr
  refine ⟨rfl, ?_⟩
  rw [hfin, storedFingerprint, List.filter_append, filter_path_of_filter_not,
    List.nil_append, keptRows_filter_path]
  cases hk : keptRows embed filePath (hashFile hashFn content)
      (getFileType filePath)
      (chunkDocument hashFn filePath content (getFileType filePath)) with
  | nil => exact absurd hk hnz
  | cons r0 rest =>
    have hr0 : r0 ∈ keptRows embed filePath (hashFile hashFn content)
        (getFileType filePath)
        (chunkDocument hashFn filePath content (getFileType filePath)) := by
      rw [hk]; exact List.mem_cons_self _ _
    obtain ⟨c, _, v, hshape⟩ := keptRows_mem embed filePath
      (hashFile hashFn content) (getFileType filePath)
      (chunkDocument hashFn filePath content (getFileType filePath)) r0 hr0
    simp only [List.head?_cons, Option.map_some']
    rw [hshape]
    rfl

theorem c4_idempotent_resync_witness :
    syncFile (fun s => s) embedFail
      (replay wStore (syncFile (fun s => s) embedOk wStore (s2l "a.md")
        (s2l "hi") false).2)
      (s2l "a.md") (s2l "hi") false = (.ok ⟨0, true⟩, []) :=
  c4_idempotent_resync (fun s => s) embedOk embedFail wStore (s2l "a.md")
    (s2l "hi") false ⟨1, false⟩ rfl rfl (by decide)

theorem dotR_cons (a b : ℝ) (u v : List ℝ) :
    dotR (a :: u) (b :: v) = a * b + dotR u v := by
  simp [dotR]

theorem dotR_self_nonneg : ∀ v : List ℝ, 0 ≤ dotR v v := by
  intro v
  induction v with
  | nil => exact le_refl _
  | cons a v ih =>
    rw [dotR_cons]
    exact add_nonneg (mul_self_nonneg a) ih

theorem dotR_sq_le : ∀ u v : List ℝ, (dotR u v) ^ 2 ≤ dotR u u * dotR v v := by
  intro u
  induction u with
  | nil => intro v; simp [dotR]
  | cons a u ih =>
    intro v
    cases v with
    | nil => simp [dotR]
    | cons b v =>
      rw [dotR_cons, dotR_cons, dotR_cons]
      have hD := ih v
      have hU := dotR_self_nonneg u
      have hV := dotR_self_nonneg v
      rcases eq_or_lt_of_le hV with hV0 | hVpos
      · have h2 : (dotR u v) ^ 2 ≤ 0 := by
          rw [← hV0, mul_zero] at hD
          exact hD
        have hD0 : dotR u v = 0 :=
          (pow_eq_zero_iff (by norm_num)).mp
            (le_antisymm h2 (sq_nonneg _))
        rw [hD0, ← hV0]
        nlinarith [mul_nonneg hU (mul_self_nonneg b)]
      · have key : ((a * a + dotR u u) * (b * b + dotR v v) -
            (a * b + dotR u v) ^ 2) * dotR v v =
            (a * dotR v v - b * dotR u v) ^ 2 +
              (b * b + dotR v v) *
                (dotR u u * dotR v v - (dotR u v) ^ 2) := by
          ring
        nlinarith [key, sq_nonneg (a * dotR v v - b * dotR u v),
          mul_nonneg (add_nonneg (mul_self_nonneg b) hV)
            (sub_nonneg.mpr hD), hVpos]

theorem abs_dotR_le (u v : List ℝ) :
    |dotR u v| ≤ Real.sqrt (dotR u u) * Real.sqrt (dotR v v) := by
  have h1 : |dotR u v| = Real.sqrt ((dotR u v) ^ 2) :=
    (Real.sqrt_sq_eq_abs _).symm
  rw [h1, ← Real.sqrt_mul (dotR_self_nonneg u)]
  exact Real.sqrt_le_sqrt (dotR_sq_le u v)

theorem cosineDistance_self (v : List ℝ) (hv : 0 < dotR v v) :
    cosineDistance v v = 0 := by
  rw [cosineDistance, Real.mul_self_sqrt (le_of_lt hv),
    div_self (ne_of_gt hv), sub_self]

theorem similarity_range (u v : List ℝ) (hu : 0 < dotR u u)
    (hv : 0 < dotR v v) :
    -1 ≤ 1 - cosineDistance u v ∧ 1 - cosineDistance u v ≤ 1 := by
  have hpos : 0 < Real.sqrt (dotR u u) * Real.sqrt (dotR v v) :=
    mul_pos (Real.sqrt_pos.mpr hu) (Real.sqrt_pos.mpr hv)
  obtain ⟨hl, hr⟩ := abs_le.mp (abs_dotR_le u v)
  have h1 : 1 - cosineDistance u v =
      dotR u v / (Real.sqrt (dotR u u) * Real.sqrt (dotR v v)) := by
    rw [cosineDistance]; ring
  rw [h1]
  constructor
  · rw [le_div_iff hpos]
    linarith
  · rw [div_le_one hpos]
    exact hr

/-- C8: the query path never surfaces a failure: a throwing embedding call
yields `[]`, a throwing storage query yields `[]`, and an empty store yields
`[]` (not an error). -/
theorem c8_query_failures_swallowed {E E' : Type}
    (embedQ : Str → Except E (List ℝ))
    (runQuery : List ℝ → Option (List FileType) → Nat →
      Except E' (List (DbRow (List ℝ))))
    (query : Str) (topK : Nat) (f : Option (List FileType)) :
    (∀ e, embedQ query = .error e →
      queryVectorDatabase embedQ runQuery query topK f = []) ∧
    (∀ qv e', embedQ query = .ok qv → runQuery qv f topK = .error e' →
      queryVectorDatabase embedQ runQuery query topK f = []) ∧
    (queryVectorDatabase embedQ
      (@pgRunQuery E' ([] : List (DbRow (List ℝ)))) query topK f = []) := by
  refine ⟨?_, ?_, ?_⟩
  · intro e he
    simp only [queryVectorDatabase, he]
  · intro qv e' he hrq
    simp only [queryVectorDatabase, he, hrq]
  · cases he : embedQ query with
    | error e => simp only [queryVectorDatabase, he]
    | ok qv =>
      simp only [queryVectorDatabase, he, pgRunQuery, pgSearch]
      cases f with
      | none => simp [List.mergeSort_nil]
      | some fts =>
        by_cases hf : 0 < fts.length
        · simp [hf, List.mergeSort_nil]
        · simp [hf, List.mergeSort_nil]

theorem c8_query_failures_swallowed_witness :
    queryVectorDatabase (fun _ : Str => (.error () : Except Unit (List ℝ)))
      (@pgRunQuery Unit ([] : List (DbRow (List ℝ)))) (s2l "q") 10
      none = [] :=
  (c8_query_failures_swallowed (fun _ : Str => (.error () : Except Unit (List ℝ)))
    (@pgRunQuery Unit ([] : List (DbRow (List ℝ)))) (s2l "q") 10
    none).1 () rfl

/-- C9 counterexample: a stored vector `[1]` queried with `[-1]` (opposite
direction) is returned with similarity `1 - cosineDistance = -1`, outside
the claimed interval `[0, 1]`. -/
theorem c9_counterexample :
    (queryVectorDatabase (fun _ : Str => (.ok [(-1 : ℝ)] : Except Unit (List ℝ)))
        (@pgRunQuery Unit [qRow1]) (s2l "q") 1 none).map
      (fun r => r.similarity) = [(-1 : ℝ)] ∧ ¬((0 : ℝ) ≤ (-1 : ℝ)) := by
  constructor
  · simp only [queryVectorDatabase, pgRunQuery, pgSearch]
    rw [List.mergeSort_singleton]
    simp only [List.take_succ_cons, List.take_nil, List.map_cons, List.map_nil,
      rowToResult, cosineDistance, qRow1]
    norm_num [dotR, Real.sqrt_one]
  · norm_num

/-- C9 (amended): every result of the query path carries
`similarity = 1 - cosineDistance` in the interval `[-1, 1]` (for non-zero
stored and query vectors), and a vector compared with itself (identical
direction) scores exactly `1.0`. -/
theorem c9_similarity_range {E : Type} (embedQ : Str → Except E (List ℝ))
    (store : List (DbRow (List ℝ))) (query : Str) (qv : List ℝ) (topK : Nat)
    (f : Option (List FileType)) (hq : embedQ query = .ok qv)
    (hqv : 0 < dotR qv qv)
    (hrows : ∀ r ∈ store, 0 < dotR r.embedding r.embedding) :
    (∀ res ∈ queryVectorDatabase embedQ (@pgRunQuery E store) query
        topK f, -1 ≤ res.similarity ∧ res.similarity ≤ 1) ∧
    1 - cosineDistance qv qv = 1 := by
  constructor
  · intro res hres
    simp only [queryVectorDatabase, hq, pgRunQuery] at hres
    rw [List.mem_map] at hres
    obtain ⟨row, hrow, rfl⟩ := hres
    have hmem : row ∈ store := by
      simp only [pgSearch] at hrow
      have h1 := List.mem_of_mem_take hrow
      rw [List.mem_mergeSort] at h1
      cases f with
      | none => exact h1
      | some fts =>
        have h2 : row ∈ (if 0 < fts.length then
            store.filter (fun r => fts.contains r.file_type) else store) := h1
        by_cases hf : 0 < fts.length
        · rw [if_pos hf] at h2
          exact (List.mem_filter.mp h2).1
        · rw [if_neg hf] at h2
          exact h2
    exact similarity_range row.embedding qv (hrows row hmem) hqv
  · rw [cosineDistance_self qv hqv]
    norm_num

theorem c9_similarity_range_witness :
    ((-1 : ℝ) ≤ (rowToResult [(1 : ℝ)] qRow1).similarity ∧
      (rowToResult [(1 : ℝ)] qRow1).similarity ≤ 1) ∧
    1 - cosineDistance [(1 : ℝ)] [(1 : ℝ)] = 1 := by
  have h := c9_similarity_range
    (fun _ : Str => (.ok [(1 : ℝ)] : Except Unit (List ℝ))) [qRow1]
    (s2l "q") [(1 : ℝ)] 5 none rfl (by norm_num [dotR])
    (by
      intro r hr
      rw [List.mem_singleton] at hr
      subst hr
      norm_num [dotR, qRow1])
  refine ⟨h.1 (rowToResult [(1 : ℝ)] qRow1) ?_, h.2⟩
  simp only [queryVectorDatabase, pgRunQuery, pgSearch]
  rw [List.mergeSort_singleton]
  simp

end Cortex
